import Mathlib

/-!
Shallow embedding of the git-history scanning driver of rusty-hog
(`src/git_scanning/gitrepo.rs`), together with the scheme-dispatch part of
`GitScanner::init_git_repo`.

Modelling conventions:
* A Rust `panic!` / `.unwrap()` on `None` is modelled by returning `none`
  from an `Option`-valued function; `some v` models normal completion.
* The external git2 library is modelled at its interface: a repository is
  the list of commits the revwalk yields (in walk order) together with a
  revspec resolver; each commit carries the diff lines that
  `diff_tree_to_tree` + `diff.print(DiffFormat::Patch, ...)` would hand to
  the callback (a merge commit never has its diff produced, so its stored
  lines are never consulted).
* `git2::Time` carries seconds and a timezone offset; its `Ord` instance is
  lexicographic on `(seconds, offset)`, which `gtimeLe` mirrors.
* The `SecretScanner` component lives outside the scanned sources; per the
  spec it is a map from reason strings to byte-regexes plus an entropy
  analyzer, so `perform_scan` is parameterised by the two functions the
  driver calls: `get_matches` (reason to match ranges) and
  `get_entropy_findings` (list of high-entropy tokens).
* The external chrono call `NaiveDateTime::from_timestamp(secs, 0).to_string()`
  is modelled as an uninterpreted injective rendering of the timestamp; no
  claim depends on the concrete calendar format.
* Byte strings are `List Nat`; the `encoding` crate's strict-ASCII decode
  with `DecoderTrap::Ignore` keeps bytes below 128 and drops the rest, and
  with the ignore trap it never reports failure.
-/

namespace RustyHog

/-- `git2::Time`: seconds since the epoch plus a timezone offset in minutes. -/
structure GTime where
  secs : Int
  offset : Int
  deriving DecidableEq, Repr

/-- The `Ord` instance of `git2::Time`: lexicographic on `(seconds, offset)`.
`gtimeLe a b` models `a <= b`. -/
def gtimeLe (a b : GTime) : Bool :=
  decide (a.secs < b.secs ∨ (a.secs = b.secs ∧ a.offset ≤ b.offset))

/-- One line handed to the `diff.print` callback: the delta's post-image
(new-file) path as git2 reports it (`None` when unavailable), and the raw
line bytes from `line.content()`. -/
structure DiffLine where
  newFilePath : Option String
  content : List Nat
  deriving DecidableEq, Repr

/-- A commit as the walk sees it: object id rendered as hex, number of
parents, committer time, message (`none` models a message that is not valid
UTF-8, where `commit.message()` returns `None`), and the diff lines the
diff of this commit against its single parent (or the empty tree) yields. -/
structure Commit where
  id : String
  parentCount : Nat
  time : GTime
  message : Option String
  diffLines : List DiffLine
  deriving DecidableEq, Repr

/-- The repository at the interface `perform_scan` uses: the commits the
revwalk yields after `push_glob` (in walk order), and the revspec resolver
(`repo.revparse(s)` followed by `.from().as_commit()`, with `none` covering
every failure, each of which panics in the source). -/
structure Repo where
  commits : List Commit
  resolve : String → Option Commit

/-- The `GitFinding` record, with the seven fields of the Rust struct. -/
structure GitFinding where
  commit : String
  commit_hash : String
  date : String
  diff : String
  strings_found : List String
  path : String
  reason : String
  deriving DecidableEq, Repr

/-- Modelled from the spec: `SecretScanner::get_matches` lives outside the
scanned sources; §4.1 specifies it as a map from user-suppliable reason
strings to byte-regexes, consumed as a mapping from reason to the ranges
matched in the buffer.  A matcher takes the line bytes to the (reason,
match ranges) pairs, each range a `(start, end)` byte pair. -/
abbrev Matcher : Type := List Nat → List (String × List (Nat × Nat))

/-- Modelled from the spec: `SecretScanner::get_entropy_findings` lives
outside the scanned sources; §4.2 specifies it as the ordered list of
high-entropy tokens of a byte buffer. -/
abbrev EntropyFn : Type := List Nat → List String

/-- Strict-ASCII decoding with `DecoderTrap::Ignore`, as the `encoding`
crate performs it: each byte below 128 becomes the corresponding character,
any other byte is an error that the ignore trap drops, and the decode as a
whole reports failure through the `Option` (with the ignore trap it in fact
always succeeds). -/
def asciiDecodeIgnore : List Nat → Option String
  | [] => some ""
  | b :: rest =>
    match asciiDecodeIgnore rest with
    | none => none
    | some s => if b < 128 then some (String.mk (Char.ofNat b :: s.data)) else some s

/-- `ASCII.decode(bytes, DecoderTrap::Ignore).unwrap_or_else(|_| "<STRING DECODE ERROR>" ...)`. -/
def decodeOrError (bs : List Nat) : String :=
  match asciiDecodeIgnore bs with
  | some s => s
  | none => "<STRING DECODE ERROR>"

/-- The Rust slice `&new_line[s..e]`. -/
def byteSlice (bs : List Nat) (s e : Nat) : List Nat :=
  (bs.take e).drop s

/-- Models the external chrono rendering
`NaiveDateTime::from_timestamp(secs, 0).to_string()` as an uninterpreted
injective rendering of the timestamp. -/
def naiveDateTimeString (secs : Int) : String :=
  "naive-datetime:" ++ toString secs

/-- The inner `for (reason, match_iterator) in matches_map` loop of
`perform_scan`: for each reason, decode the matched ranges into `secrets`;
when `secrets` is non-empty, build a `GitFinding` — unwrapping the commit
message and the delta's new-file path, either being absent panicking
(`none`) — and insert it into the accumulator set. -/
def processReasons (msg? path? : Option String) (hash dateStr : String) (content : List Nat) :
    List (String × List (Nat × Nat)) → Finset GitFinding → Option (Finset GitFinding)
  | [], acc => some acc
  | (reason, ranges) :: rest, acc =>
    let secrets := ranges.map (fun r => decodeOrError (byteSlice content r.1 r.2))
    if secrets.isEmpty then
      processReasons msg? path? hash dateStr content rest acc
    else
      match msg?, path? with
      | some msg, some p =>
        processReasons msg? path? hash dateStr content rest
          (insert ⟨msg, hash, dateStr, decodeOrError content, secrets, p, reason⟩ acc)
      | _, _ => none

/-- The body of the `diff.print` callback for one line: the regex pass over
`get_matches`, then — when entropy scanning is enabled — the entropy pass,
which inserts a finding with reason `"Entropy"` when
`get_entropy_findings` returns a non-empty list (again unwrapping message
and path). -/
def processLine (gm : Matcher) (ge : EntropyFn) (scanEntropy : Bool)
    (msg? : Option String) (hash dateStr : String) (dl : DiffLine)
    (acc : Finset GitFinding) : Option (Finset GitFinding) :=
  match processReasons msg? dl.newFilePath hash dateStr dl.content (gm dl.content) acc with
  | none => none
  | some acc1 =>
    if scanEntropy then
      let ef := ge dl.content
      if ef.isEmpty then some acc1
      else
        match msg?, dl.newFilePath with
        | some msg, some p =>
          some (insert ⟨msg, hash, dateStr, decodeOrError dl.content, ef, p, "Entropy"⟩ acc1)
        | _, _ => none
    else some acc1

/-- All lines of one commit's diff, in patch order. -/
def processLines (gm : Matcher) (ge : EntropyFn) (scanEntropy : Bool)
    (msg? : Option String) (hash dateStr : String) :
    List DiffLine → Finset GitFinding → Option (Finset GitFinding)
  | [], acc => some acc
  | dl :: rest, acc =>
    match processLine gm ge scanEntropy msg? hash dateStr dl acc with
    | none => none
    | some acc1 => processLines gm ge scanEntropy msg? hash dateStr rest acc1

/-- One iteration of the main commit loop: a commit with more than one
parent is skipped (`continue`) before any diff is produced; otherwise its
diff lines are streamed through the scanner. -/
def processCommit (gm : Matcher) (ge : EntropyFn) (scanEntropy : Bool)
    (c : Commit) (acc : Finset GitFinding) : Option (Finset GitFinding) :=
  if 1 < c.parentCount then some acc
  else processLines gm ge scanEntropy c.message c.id (naiveDateTimeString c.time.secs) c.diffLines acc

/-- The main loop of `perform_scan` over the filtered revwalk. -/
def scanCommits (gm : Matcher) (ge : EntropyFn) (scanEntropy : Bool) :
    List Commit → Finset GitFinding → Option (Finset GitFinding)
  | [], acc => some acc
  | c :: rest, acc =>
    match processCommit gm ge scanEntropy c acc with
    | none => none
    | some acc1 => scanCommits gm ge scanEntropy rest acc1

/-- The `since_commit` preamble of `perform_scan`: with no `since_commit`,
the cutoff is `Time::new(0, 0)`; otherwise the revspec is resolved and the
resolved commit's committer time taken, resolution failure panicking. -/
def sinceTime (repo : Repo) : Option String → Option GTime
  | none => some ⟨0, 0⟩
  | some s => (repo.resolve s).map Commit.time

/-- `GitScanner::perform_scan`: compute the time cutoff, keep the walked
commits whose committer time is at least the cutoff, and run the main scan
loop starting from the empty finding set.  (The `glob` parameter of the
Rust signature is unused by the function body — the walk always pushes
`"*"` — and is omitted.) -/
def perform_scan (gm : Matcher) (ge : EntropyFn) (repo : Repo)
    (since_commit : Option String) (scanEntropy : Bool) : Option (Finset GitFinding) :=
  match sinceTime repo since_commit with
  | none => none
  | some t => scanCommits gm ge scanEntropy (repo.commits.filter (fun c => gtimeLe t c.time)) ∅

/-- The outcome of `Url::parse` at the interface `init_git_repo` uses: the
url crate either yields a parsed URL — of which the dispatch consults only
the scheme and the username, the username being the empty string when the
URL carries none — or fails, `RelativeUrlWithoutBase` being the one failure
the code recovers from. -/
structure ParsedUrl where
  scheme : String
  username : String
  deriving DecidableEq, Repr

/-- The `url::ParseError` cases `init_git_repo` distinguishes. -/
inductive UrlFail where
  | relativeUrlWithoutBase
  | otherError
  deriving DecidableEq, Repr

/-- The action `init_git_repo` takes to obtain the repository.  `cloneSsh`
records the username handed to `get_ssh_git_repo`. -/
inductive CloneAction where
  | cloneLocal
  | cloneHttp
  | cloneSsh (username : String)
  | openLocal
  deriving DecidableEq, Repr

/-- Rust's `char::to_ascii_lowercase`: ASCII capitals map to the
corresponding lowercase letter, every other character is unchanged. -/
def asciiLowerChar (c : Char) : Char :=
  if 65 ≤ c.toNat ∧ c.toNat ≤ 90 then Char.ofNat (c.toNat + 32) else c

/-- Rust's `str::to_ascii_lowercase`, applied characterwise. -/
def asciiLowercase (s : String) : String :=
  String.mk (s.data.map asciiLowerChar)

/-- `GitScanner::init_git_repo`, scheme dispatch and repository
acquisition.  `parsed` is the result of `Url::parse(path)`; `localOpenOk`
models whether `Repository::open(path)` succeeds in the relative-path
branch.  `none` models the panics (unknown scheme, other parse errors);
clone failures inside a branch are beyond the dispatch being modelled. -/
def init_git_repo (parsed : Except UrlFail ParsedUrl) (path : String)
    (localOpenOk : Bool) : Option CloneAction :=
  match parsed with
  | Except.ok url =>
    let s := asciiLowercase url.scheme
    if s = "http" then some CloneAction.cloneHttp
    else if s = "https" then some CloneAction.cloneHttp
    else if s = "file" then some CloneAction.cloneLocal
    else if s = "ssh" then some (CloneAction.cloneSsh url.username)
    else if s = "git" then
      some (CloneAction.cloneSsh (if url.username = "" then "git" else url.username))
    else none
  | Except.error UrlFail.relativeUrlWithoutBase =>
    if localOpenOk then some CloneAction.openLocal
    else
      some (CloneAction.cloneSsh
        (if path.data.contains '@' then String.mk (path.data.takeWhile (fun ch => ch ≠ '@'))
         else "git"))
  | Except.error UrlFail.otherError => none

/-! ### Concrete data for witnesses and counterexamples -/

/-- A matcher with a single conventional pattern, matching the first four
bytes of every line. -/
def exGm : Matcher := fun _ => [("AWS API Key", [(0, 4)])]

/-- An entropy analyzer that finds nothing. -/
def exGe : EntropyFn := fun _ => []

/-- A diff line adding the bytes of `AKIA` to `config.yml`. -/
def exLine : DiffLine := ⟨some "config.yml", [65, 75, 73, 65]⟩

/-- A root commit carrying `exLine`. -/
def exCommit : Commit := ⟨"c1", 0, ⟨100, 0⟩, some "initial", [exLine]⟩

/-- A merge commit (two parents). -/
def exMerge : Commit := ⟨"m1", 2, ⟨200, 0⟩, some "merge", [⟨some "a", [66]⟩]⟩

/-- A repository whose walk yields the root commit and the merge. -/
def exRepo : Repo := ⟨[exCommit, exMerge], fun s => if s = "c1" then some exCommit else none⟩

/-- The one finding the example scan emits. -/
def exFinding : GitFinding :=
  ⟨"initial", "c1", naiveDateTimeString 100, "AKIA", ["AKIA"], "config.yml", "AWS API Key"⟩

/-- A commit with a committer time before the epoch. -/
def exOld : Commit := ⟨"o1", 0, ⟨-5, 0⟩, some "old", []⟩

/-- A repository holding only the pre-epoch commit. -/
def exRepoOld : Repo := ⟨[exOld], fun _ => none⟩

/-- A matcher whose single pattern is named `"Entropy"`, as a user-supplied
pattern catalogue may be (§4.1, §6: the catalogue is a JSON object with
arbitrary reason-string keys). -/
def gmEnt : Matcher := fun _ => [("Entropy", [(0, 1)])]

/-- The line the `"Entropy"`-named pattern matches. -/
def entLine : DiffLine := ⟨some "p", [65]⟩

/-- The commit carrying `entLine`. -/
def entCommit : Commit := ⟨"e1", 0, ⟨1, 0⟩, some "m", [entLine]⟩

/-- A repository holding only `entCommit`. -/
def entRepo : Repo := ⟨[entCommit], fun _ => none⟩

/-- The finding the regex branch emits from `entLine`. -/
def entFinding : GitFinding := ⟨"m", "e1", naiveDateTimeString 1, "A", ["A"], "p", "Entropy"⟩

/-- A matcher with no patterns. -/
def gmNone : Matcher := fun _ => []

/-- An entropy analyzer that reports one token on every line. -/
def geTok : EntropyFn := fun _ => ["deadbeef"]

/-- A line whose delta carries a post-image path. -/
def noMsgLine : DiffLine := ⟨some "q", [66]⟩

/-- A commit whose message is not valid UTF-8 (`commit.message()` is `None`). -/
def noMsgCommit : Commit := ⟨"n1", 0, ⟨1, 0⟩, none, [noMsgLine]⟩

/-- A repository holding only `noMsgCommit`. -/
def noMsgRepo : Repo := ⟨[noMsgCommit], fun _ => none⟩

/-- A diff line whose post-image path is unavailable. -/
def delLine : DiffLine := ⟨none, [65, 75, 73, 65]⟩

/-- The commit carrying `delLine`. -/
def delCommit : Commit := ⟨"d1", 0, ⟨1, 0⟩, some "del", [delLine]⟩

/-- A repository holding only `delCommit`. -/
def delRepo : Repo := ⟨[delCommit], fun _ => none⟩

/-- Provenance of a finding: `Emits gm ge se c f` says the scan of commit
`c` (which must not be a merge) builds `f` from one of `c`'s diff lines,
either through the regex branch or — only with entropy scanning on —
through the entropy branch. -/
def Emits (gm : Matcher) (ge : EntropyFn) (se : Bool) (c : Commit) (f : GitFinding) : Prop :=
  c.parentCount ≤ 1 ∧
  ∃ dl, dl ∈ c.diffLines ∧ c.message = some f.commit ∧ dl.newFilePath = some f.path ∧
    f.commit_hash = c.id ∧ f.date = naiveDateTimeString c.time.secs ∧
    f.diff = decodeOrError dl.content ∧
    ((∃ ranges, (f.reason, ranges) ∈ gm dl.content ∧ ranges ≠ [] ∧
        f.strings_found = ranges.map (fun r => decodeOrError (byteSlice dl.content r.1 r.2))) ∨
      (se = true ∧ f.reason = "Entropy" ∧ f.strings_found = ge dl.content ∧
        ge dl.content ≠ []))

/-! ### Helper lemmas: provenance of findings -/

theorem processReasons_mem {msg? path? : Option String} {hash d : String} {content : List Nat}
    {L : List (String × List (Nat × Nat))} {acc acc' : Finset GitFinding} {f : GitFinding}
    (h : processReasons msg? path? hash d content L acc = some acc') (hf : f ∈ acc') :
    f ∈ acc ∨ ∃ reason ranges msg p, (reason, ranges) ∈ L ∧ ranges ≠ [] ∧
      msg? = some msg ∧ path? = some p ∧
      f = ⟨msg, hash, d, decodeOrError content,
        ranges.map (fun r => decodeOrError (byteSlice content r.1 r.2)), p, reason⟩ := by
  induction L generalizing acc with
  | nil =>
    simp only [processReasons, Option.some.injEq] at h
    subst h
    exact Or.inl hf
  | cons hd rest ih =>
    obtain ⟨reason, ranges⟩ := hd
    simp only [processReasons] at h
    by_cases hre : (ranges.map (fun r => decodeOrError (byteSlice content r.1 r.2))).isEmpty
    · rw [if_pos hre] at h
      rcases ih h with h1 | ⟨r, rs, m, p, hmem, hrs, hm, hp, hfe⟩
      · exact Or.inl h1
      · exact Or.inr ⟨r, rs, m, p, List.mem_cons_of_mem _ hmem, hrs, hm, hp, hfe⟩
    · rw [if_neg hre] at h
      have hrne : ranges ≠ [] := by
        intro hnil
        rw [hnil] at hre
        exact hre rfl
      cases msg? with
      | none => exact absurd h (by simp)
      | some msg =>
        cases path? with
        | none => exact absurd h (by simp)
        | some p =>
          simp only [] at h
          rcases ih h with h1 | ⟨r, rs, m, p2, hmem, hrs, hm, hp, hfe⟩
          · rcases Finset.mem_insert.mp h1 with h2 | h2
            · exact Or.inr ⟨reason, ranges, msg, p, List.mem_cons_self _ _, hrne, rfl, rfl, h2⟩
            · exact Or.inl h2
          · exact Or.inr ⟨r, rs, m, p2, List.mem_cons_of_mem _ hmem, hrs, hm, hp, hfe⟩

theorem processLine_mem {gm : Matcher} {ge : EntropyFn} {se : Bool}
    {msg? : Option String} {hash d : String} {dl : DiffLine}
    {acc acc' : Finset GitFinding} {f : GitFinding}
    (h : processLine gm ge se msg? hash d dl acc = some acc') (hf : f ∈ acc') :
    f ∈ acc ∨
      (∃ reason ranges msg p, (reason, ranges) ∈ gm dl.content ∧ ranges ≠ [] ∧
        msg? = some msg ∧ dl.newFilePath = some p ∧
        f = ⟨msg, hash, d, decodeOrError dl.content,
          ranges.map (fun r => decodeOrError (byteSlice dl.content r.1 r.2)), p, reason⟩) ∨
      (se = true ∧ ge dl.content ≠ [] ∧ ∃ msg p, msg? = some msg ∧ dl.newFilePath = some p ∧
        f = ⟨msg, hash, d, decodeOrError dl.content, ge dl.content, p, "Entropy"⟩) := by
  unfold processLine at h
  cases hpr : processReasons msg? dl.newFilePath hash d dl.content (gm dl.content) acc with
  | none => rw [hpr] at h; exact absurd h (by simp)
  | some acc1 =>
    rw [hpr] at h
    cases se with
    | false =>
      simp only [Bool.false_eq_true, if_false, Option.some.injEq] at h
      subst h
      rcases processReasons_mem hpr hf with h1 | ⟨r, rs, m, p, hmem, hrs, hm, hp, hfe⟩
      · exact Or.inl h1
      · exact Or.inr (Or.inl ⟨r, rs, m, p, hmem, hrs, hm, hp, hfe⟩)
    | true =>
      simp only [if_true] at h
      by_cases hef : (ge dl.content).isEmpty
      · rw [if_pos hef] at h
        simp only [Option.some.injEq] at h
        subst h
        rcases processReasons_mem hpr hf with h1 | ⟨r, rs, m, p, hmem, hrs, hm, hp, hfe⟩
        · exact Or.inl h1
        · exact Or.inr (Or.inl ⟨r, rs, m, p, hmem, hrs, hm, hp, hfe⟩)
      · rw [if_neg hef] at h
        have hgne : ge dl.content ≠ [] := by
          intro hnil
          rw [hnil] at hef
          exact hef rfl
        cases msg? with
        | none => exact absurd h (by simp)
        | some msg =>
          cases hpath : dl.newFilePath with
          | none => rw [hpath] at h; exact absurd h (by simp)
          | some p =>
            rw [hpath] at h
            simp only [Option.some.injEq] at h
            subst h
            rcases Finset.mem_insert.mp hf with h2 | h2
            · exact Or.inr (Or.inr ⟨rfl, hgne, msg, p, rfl, rfl, h2⟩)
            · rcases processReasons_mem hpr h2 with h1 | ⟨r, rs, m, p2, hmem, hrs, hm, hp, hfe⟩
              · exact Or.inl h1
              · exact Or.inr (Or.inl ⟨r, rs, m, p2, hmem, hrs, hm, hpath.symm.trans hp, hfe⟩)

theorem processLines_mem {gm : Matcher} {ge : EntropyFn} {se : Bool}
    {msg? : Option String} {hash d : String} {lines : List DiffLine}
    {acc acc' : Finset GitFinding} {f : GitFinding}
    (h : processLines gm ge se msg? hash d lines acc = some acc') (hf : f ∈ acc') :
    f ∈ acc ∨ ∃ dl, dl ∈ lines ∧
      ((∃ reason ranges msg p, (reason, ranges) ∈ gm dl.content ∧ ranges ≠ [] ∧
        msg? = some msg ∧ dl.newFilePath = some p ∧
        f = ⟨msg, hash, d, decodeOrError dl.content,
          ranges.map (fun r => decodeOrError (byteSlice dl.content r.1 r.2)), p, reason⟩) ∨
      (se = true ∧ ge dl.content ≠ [] ∧ ∃ msg p, msg? = some msg ∧ dl.newFilePath = some p ∧
        f = ⟨msg, hash, d, decodeOrError dl.content, ge dl.content, p, "Entropy"⟩)) := by
  induction lines generalizing acc with
  | nil =>
    simp only [processLines, Option.some.injEq] at h
    subst h
    exact Or.inl hf
  | cons dl rest ih =>
    simp only [processLines] at h
    cases hpl : processLine gm ge se msg? hash d dl acc with
    | none => rw [hpl] at h; exact absurd h (by simp)
    | some acc1 =>
      rw [hpl] at h
      rcases ih h with h1 | ⟨dl2, hmem, hshape⟩
      · rcases processLine_mem hpl h1 with h2 | h2 | h2
        · exact Or.inl h2
        · exact Or.inr ⟨dl, List.mem_cons_self _ _, Or.inl h2⟩
        · exact Or.inr ⟨dl, List.mem_cons_self _ _, Or.inr h2⟩
      · exact Or.inr ⟨dl2, List.mem_cons_of_mem _ hmem, hshape⟩

theorem processCommit_mem {gm : Matcher} {ge : EntropyFn} {se : Bool} {c : Commit}
    {acc acc' : Finset GitFinding} {f : GitFinding}
    (h : processCommit gm ge se c acc = some acc') (hf : f ∈ acc') :
    f ∈ acc ∨ Emits gm ge se c f := by
  unfold processCommit at h
  by_cases hp : 1 < c.parentCount
  · rw [if_pos hp] at h
    simp only [Option.some.injEq] at h
    subst h
    exact Or.inl hf
  · rw [if_neg hp] at h
    rcases processLines_mem h hf with h1 | ⟨dl, hmem, hshape⟩
    · exact Or.inl h1
    · refine Or.inr ⟨Nat.le_of_not_lt hp, dl, hmem, ?_⟩
      rcases hshape with ⟨r, rs, m, p, hrm, hrs, hm, hpth, hfe⟩ | ⟨hse, hgne, m, p, hm, hpth, hfe⟩
      · subst hfe
        exact ⟨hm, hpth, rfl, rfl, rfl, Or.inl ⟨rs, hrm, hrs, rfl⟩⟩
      · subst hfe
        exact ⟨hm, hpth, rfl, rfl, rfl, Or.inr ⟨hse, rfl, rfl, hgne⟩⟩

theorem scanCommits_mem {gm : Matcher} {ge : EntropyFn} {se : Bool} {cs : List Commit}
    {acc acc' : Finset GitFinding} {f : GitFinding}
    (h : scanCommits gm ge se cs acc = some acc') (hf : f ∈ acc') :
    f ∈ acc ∨ ∃ c, c ∈ cs ∧ Emits gm ge se c f := by
  induction cs generalizing acc with
  | nil =>
    simp only [scanCommits, Option.some.injEq] at h
    subst h
    exact Or.inl hf
  | cons c rest ih =>
    simp only [scanCommits] at h
    cases hpc : processCommit gm ge se c acc with
    | none => rw [hpc] at h; exact absurd h (by simp)
    | some acc1 =>
      rw [hpc] at h
      rcases ih h with h1 | ⟨c2, hmem, hemit⟩
      · rcases processCommit_mem hpc h1 with h2 | h2
        · exact Or.inl h2
        · exact Or.inr ⟨c, List.mem_cons_self _ _, h2⟩
      · exact Or.inr ⟨c2, List.mem_cons_of_mem _ hmem, hemit⟩

theorem perform_scan_mem {gm : Matcher} {ge : EntropyFn} {repo : Repo}
    {since_commit : Option String} {se : Bool} {res : Finset GitFinding} {f : GitFinding}
    (h : perform_scan gm ge repo since_commit se = some res) (hf : f ∈ res) :
    ∃ c, c ∈ repo.commits ∧ Emits gm ge se c f := by
  unfold perform_scan at h
  cases hst : sinceTime repo since_commit with
  | none => rw [hst] at h; exact absurd h (by simp)
  | some t =>
    rw [hst] at h
    rcases scanCommits_mem h hf with h1 | ⟨c, hmem, hemit⟩
    · exact absurd h1 (Finset.not_mem_empty f)
    · exact ⟨c, (List.mem_filter.mp hmem).1, hemit⟩

/-! ### Helper lemmas: entropy on/off runs, and the panic cases -/

theorem processReasons_filter {msg? path? : Option String} {hash d : String}
    {content : List Nat} {L : List (String × List (Nat × Nat))} {acc acc' : Finset GitFinding}
    (hL : ∀ r rs, (r, rs) ∈ L → r ≠ "Entropy")
    (h : processReasons msg? path? hash d content L acc = some acc') :
    processReasons msg? path? hash d content L
      (acc.filter (fun f => f.reason ≠ "Entropy")) =
      some (acc'.filter (fun f => f.reason ≠ "Entropy")) := by
  induction L generalizing acc with
  | nil =>
    simp only [processReasons, Option.some.injEq] at h ⊢
    rw [h]
  | cons hd rest ih =>
    obtain ⟨reason, ranges⟩ := hd
    simp only [processReasons] at h ⊢
    by_cases hre : (ranges.map (fun r => decodeOrError (byteSlice content r.1 r.2))).isEmpty
    · rw [if_pos hre] at h ⊢
      exact ih (fun r rs hm => hL r rs (List.mem_cons_of_mem _ hm)) h
    · rw [if_neg hre] at h ⊢
      cases msg? with
      | none => exact absurd h (by simp)
      | some msg =>
        cases path? with
        | none => exact absurd h (by simp)
        | some p =>
          simp only [] at h ⊢
          have hP : reason ≠ "Entropy" := hL reason ranges (List.mem_cons_self _ _)
          have hrec := ih (fun r rs hm => hL r rs (List.mem_cons_of_mem _ hm)) h
          rwa [Finset.filter_insert, if_pos hP] at hrec

theorem processLine_filter {gm : Matcher} {ge : EntropyFn} {msg? : Option String}
    {hash d : String} {dl : DiffLine} {acc acc' : Finset GitFinding}
    (hL : ∀ r rs, (r, rs) ∈ gm dl.content → r ≠ "Entropy")
    (h : processLine gm ge true msg? hash d dl acc = some acc') :
    processLine gm ge false msg? hash d dl
      (acc.filter (fun f => f.reason ≠ "Entropy")) =
      some (acc'.filter (fun f => f.reason ≠ "Entropy")) := by
  unfold processLine at h ⊢
  cases hpr : processReasons msg? dl.newFilePath hash d dl.content (gm dl.content) acc with
  | none => rw [hpr] at h; exact absurd h (by simp)
  | some m1 =>
    rw [hpr] at h
    rw [processReasons_filter hL hpr]
    simp only [Bool.false_eq_true, if_false, if_true, Option.some.injEq]
    simp only [if_true] at h
    by_cases hef : (ge dl.content).isEmpty
    · rw [if_pos hef] at h
      simp only [Option.some.injEq] at h
      rw [h]
    · rw [if_neg hef] at h
      cases msg? with
      | none => exact absurd h (by simp)
      | some msg =>
        cases hpath : dl.newFilePath with
        | none => rw [hpath] at h; exact absurd h (by simp)
        | some p =>
          rw [hpath] at h
          simp only [Option.some.injEq] at h
          rw [← h, Finset.filter_insert, if_neg (by simp)]

theorem processLines_filter {gm : Matcher} {ge : EntropyFn} {msg? : Option String}
    {hash d : String} {lines : List DiffLine} {acc acc' : Finset GitFinding}
    (hgm : ∀ bs r rs, (r, rs) ∈ gm bs → r ≠ "Entropy")
    (h : processLines gm ge true msg? hash d lines acc = some acc') :
    processLines gm ge false msg? hash d lines
      (acc.filter (fun f => f.reason ≠ "Entropy")) =
      some (acc'.filter (fun f => f.reason ≠ "Entropy")) := by
  induction lines generalizing acc with
  | nil =>
    simp only [processLines, Option.some.injEq] at h ⊢
    rw [h]
  | cons dl rest ih =>
    simp only [processLines] at h ⊢
    cases hpl : processLine gm ge true msg? hash d dl acc with
    | none => rw [hpl] at h; exact absurd h (by simp)
    | some m1 =>
      rw [hpl] at h
      rw [processLine_filter (hgm dl.content) hpl]
      exact ih h

theorem processCommit_filter {gm : Matcher} {ge : EntropyFn} {c : Commit}
    {acc acc' : Finset GitFinding}
    (hgm : ∀ bs r rs, (r, rs) ∈ gm bs → r ≠ "Entropy")
    (h : processCommit gm ge true c acc = some acc') :
    processCommit gm ge false c (acc.filter (fun f => f.reason ≠ "Entropy")) =
      some (acc'.filter (fun f => f.reason ≠ "Entropy")) := by
  unfold processCommit at h ⊢
  by_cases hp : 1 < c.parentCount
  · rw [if_pos hp] at h ⊢
    simp only [Option.some.injEq] at h ⊢
    rw [h]
  · rw [if_neg hp] at h ⊢
    exact processLines_filter hgm h

theorem scanCommits_filter {gm : Matcher} {ge : EntropyFn} {cs : List Commit}
    {acc acc' : Finset GitFinding}
    (hgm : ∀ bs r rs, (r, rs) ∈ gm bs → r ≠ "Entropy")
    (h : scanCommits gm ge true cs acc = some acc') :
    scanCommits gm ge false cs (acc.filter (fun f => f.reason ≠ "Entropy")) =
      some (acc'.filter (fun f => f.reason ≠ "Entropy")) := by
  induction cs generalizing acc with
  | nil =>
    simp only [scanCommits, Option.some.injEq] at h ⊢
    rw [h]
  | cons c rest ih =>
    simp only [scanCommits] at h ⊢
    cases hpc : processCommit gm ge true c acc with
    | none => rw [hpc] at h; exact absurd h (by simp)
    | some m1 =>
      rw [hpc] at h
      rw [processCommit_filter hgm hpc]
      exact ih h

theorem processReasons_none {msg? path? : Option String} {hash d : String}
    {content : List Nat} {L : List (String × List (Nat × Nat))} {acc : Finset GitFinding}
    (hmp : msg? = none ∨ path? = none)
    (hx : ∃ r rs, (r, rs) ∈ L ∧ rs ≠ []) :
    processReasons msg? path? hash d content L acc = none := by
  induction L generalizing acc with
  | nil =>
    rcases hx with ⟨r, rs, hm, _⟩
    exact absurd hm (List.not_mem_nil _)
  | cons hd rest ih =>
    obtain ⟨reason, ranges⟩ := hd
    simp only [processReasons]
    by_cases hre : (ranges.map (fun r => decodeOrError (byteSlice content r.1 r.2))).isEmpty
    · rw [if_pos hre]
      apply ih
      rcases hx with ⟨r, rs, hm, hrs⟩
      rcases List.mem_cons.mp hm with heq | hm2
      · exfalso
        have hr2 : rs = ranges := congrArg Prod.snd heq
        have : ranges = [] :=
          List.map_eq_nil_iff.mp (List.isEmpty_iff.mp hre)
        exact hrs (hr2.trans this)
      · exact ⟨r, rs, hm2, hrs⟩
    · rw [if_neg hre]
      rcases hmp with hm | hp
      · rw [hm]
      · rw [hp]
        cases msg? <;> rfl

theorem processLine_none_of_path {gm : Matcher} {ge : EntropyFn} {se : Bool}
    {msg? : Option String} {hash d : String} {dl : DiffLine} {acc : Finset GitFinding}
    (hpath : dl.newFilePath = none)
    (hx : (∃ r rs, (r, rs) ∈ gm dl.content ∧ rs ≠ []) ∨ (se = true ∧ ge dl.content ≠ [])) :
    processLine gm ge se msg? hash d dl acc = none := by
  unfold processLine
  rcases hx with hrx | ⟨hse, hge⟩
  · rw [processReasons_none (Or.inr hpath) hrx]
  · cases hpr : processReasons msg? dl.newFilePath hash d dl.content (gm dl.content) acc with
    | none => rfl
    | some m1 =>
      dsimp only
      rw [hse, if_pos rfl, if_neg (fun hc => hge (List.isEmpty_iff.mp hc)), hpath]
      cases msg? <;> rfl

theorem processLine_none_of_msg {gm : Matcher} {ge : EntropyFn} {se : Bool}
    {hash d : String} {dl : DiffLine} {acc : Finset GitFinding}
    (hx : (∃ r rs, (r, rs) ∈ gm dl.content ∧ rs ≠ []) ∨ (se = true ∧ ge dl.content ≠ [])) :
    processLine gm ge se none hash d dl acc = none := by
  unfold processLine
  rcases hx with hrx | ⟨hse, hge⟩
  · rw [processReasons_none (Or.inl rfl) hrx]
  · cases hpr : processReasons none dl.newFilePath hash d dl.content (gm dl.content) acc with
    | none => rfl
    | some m1 =>
      dsimp only
      rw [hse, if_pos rfl, if_neg (fun hc => hge (List.isEmpty_iff.mp hc))]

theorem asciiDecodeIgnore_eq (bs : List Nat) :
    asciiDecodeIgnore bs =
      some (String.mk ((bs.filter (fun b => decide (b < 128))).map Char.ofNat)) := by
  induction bs with
  | nil => rfl
  | cons b rest ih =>
    simp only [asciiDecodeIgnore, ih, List.filter]
    by_cases hb : b < 128
    · rw [if_pos hb]
      simp [hb]
    · rw [if_neg hb]
      simp [hb]

theorem processReasons_ne_none {msg p : String} {hash d : String} {content : List Nat}
    {L : List (String × List (Nat × Nat))} {acc : Finset GitFinding} :
    processReasons (some msg) (some p) hash d content L acc ≠ none := by
  induction L generalizing acc with
  | nil => simp [processReasons]
  | cons hd rest ih =>
    obtain ⟨reason, ranges⟩ := hd
    simp only [processReasons]
    by_cases hre : (ranges.map (fun r => decodeOrError (byteSlice content r.1 r.2))).isEmpty
    · rw [if_pos hre]
      exact ih
    · rw [if_neg hre]
      exact ih

theorem processLine_ne_none {gm : Matcher} {ge : EntropyFn} {se : Bool}
    {msg p : String} {hash d : String} {dl : DiffLine} {acc : Finset GitFinding}
    (hpath : dl.newFilePath = some p) :
    processLine gm ge se (some msg) hash d dl acc ≠ none := by
  unfold processLine
  rw [hpath]
  cases hpr : processReasons (some msg) (some p) hash d dl.content (gm dl.content) acc with
  | none => exact absurd hpr processReasons_ne_none
  | some m1 =>
    dsimp only
    cases se with
    | false => simp
    | true =>
      rw [if_pos rfl]
      by_cases hef : (ge dl.content).isEmpty
      · rw [if_pos hef]
        simp
      · rw [if_neg hef]
        simp

/-! ### The claims -/

/-- Claim C1: every commit the walker visits that has more than one parent
is skipped entirely — `processCommit` returns the accumulator unchanged, so
no diff is produced for it — and consequently (commit ids being pairwise
distinct, as git object ids are) no finding in the returned set has
`commit_hash` equal to that commit's id. -/
theorem claim_C1_merge_commits_skipped {gm : Matcher} {ge : EntropyFn} {repo : Repo}
    {since_commit : Option String} {se : Bool} {res : Finset GitFinding} {c : Commit}
    (hids : repo.commits.Pairwise (fun a b => a.id ≠ b.id))
    (hc : c ∈ repo.commits) (hm : 1 < c.parentCount)
    (hres : perform_scan gm ge repo since_commit se = some res) :
    (∀ acc, processCommit gm ge se c acc = some acc) ∧
      ∀ f ∈ res, f.commit_hash ≠ c.id := by
  constructor
  · intro acc
    unfold processCommit
    rw [if_pos hm]
  · intro f hf heq
    obtain ⟨c2, hc2, hple, dl, hdl, hmsg, hpath, hhash, hdate, hdiff, hbr⟩ :=
      perform_scan_mem hres hf
    have hne : c2 ≠ c := by
      intro h2
      rw [h2] at hple
      exact absurd hm (Nat.not_lt_of_le hple)
    have hidne : c2.id ≠ c.id :=
      List.Pairwise.forall (fun _ _ hab => Ne.symm hab) hids hc2 hc hne
    exact hidne (hhash.symm.trans heq)

/-- Witness for C1 on the concrete repository `exRepo`, whose walk yields a
root commit and a two-parent merge `exMerge`. -/
theorem claim_C1_witness :
    (processCommit exGm exGe false exMerge ∅ = some ∅) ∧
      exFinding.commit_hash ≠ exMerge.id :=
  ⟨(@claim_C1_merge_commits_skipped exGm exGe exRepo none false {exFinding} exMerge
      (by decide) (by decide) (by decide) (by decide)).1 ∅,
    (@claim_C1_merge_commits_skipped exGm exGe exRepo none false {exFinding} exMerge
      (by decide) (by decide) (by decide) (by decide)).2 exFinding (by decide)⟩

/-- Claim C2: with a `since_commit` revspec that resolves to commit `c0`,
the scan runs over exactly the walked commits whose committer time is at
least `c0`'s committer time `T` — a pure time cutoff over all walked
commits (membership in the scanned list depends only on the commit's time,
never on ancestry), where time comparison is git2's lexicographic order on
(seconds, offset). -/
theorem claim_C2_since_commit_time_cutoff {gm : Matcher} {ge : EntropyFn} {repo : Repo}
    {se : Bool} {s : String} {c0 : Commit}
    (h : repo.resolve s = some c0) :
    perform_scan gm ge repo (some s) se =
      scanCommits gm ge se (repo.commits.filter (fun c => gtimeLe c0.time c.time)) ∅ ∧
    (∀ c, c ∈ repo.commits.filter (fun c => gtimeLe c0.time c.time) ↔
      c ∈ repo.commits ∧ gtimeLe c0.time c.time = true) ∧
    (∀ a b : GTime, gtimeLe a b = true ↔
      (a.secs < b.secs ∨ (a.secs = b.secs ∧ a.offset ≤ b.offset))) := by
  refine ⟨?_, ?_, ?_⟩
  · unfold perform_scan
    have hst : sinceTime repo (some s) = some c0.time := by
      simp [sinceTime, h]
    rw [hst]
  · intro c
    exact List.mem_filter
  · intro a b
    simp [gtimeLe]

/-- Witness for C2 on the concrete repository `exRepo`, resolving the
revspec to the root commit. -/
theorem claim_C2_witness :
    (perform_scan exGm exGe exRepo (some "c1") false =
      scanCommits exGm exGe false
        (exRepo.commits.filter (fun c => gtimeLe exCommit.time c.time)) ∅) ∧
    (exMerge ∈ exRepo.commits.filter (fun c => gtimeLe exCommit.time c.time) ↔
      exMerge ∈ exRepo.commits ∧ gtimeLe exCommit.time exMerge.time = true) :=
  ⟨(@claim_C2_since_commit_time_cutoff exGm exGe exRepo false "c1" exCommit (by decide)).1,
    (@claim_C2_since_commit_time_cutoff exGm exGe exRepo false "c1" exCommit
      (by decide)).2.1 exMerge⟩

/-- Claim C9: with `since_commit` absent the cutoff is `Time::new(0, 0)`,
so the scan runs over the walked commits whose committer time is at least
the Unix epoch, and any walked commit whose committer timestamp is strictly
negative is excluded even though no filter was requested. -/
theorem claim_C9_default_epoch_cutoff {gm : Matcher} {ge : EntropyFn} {repo : Repo}
    {se : Bool} :
    perform_scan gm ge repo none se =
      scanCommits gm ge se (repo.commits.filter (fun c => gtimeLe ⟨0, 0⟩ c.time)) ∅ ∧
    ∀ c, c ∈ repo.commits → c.time.secs < 0 →
      c ∉ repo.commits.filter (fun c => gtimeLe ⟨0, 0⟩ c.time) := by
  constructor
  · rfl
  · intro c _ hneg hmem
    have hkeep := (List.mem_filter.mp hmem).2
    simp only [gtimeLe, decide_eq_true_eq] at hkeep
    rcases hkeep with h1 | ⟨h1, _⟩ <;> omega

/-- Witness for C9 on a repository whose only commit predates the epoch. -/
theorem claim_C9_witness :
    (perform_scan exGm exGe exRepoOld none false =
      scanCommits exGm exGe false
        (exRepoOld.commits.filter (fun c => gtimeLe ⟨0, 0⟩ c.time)) ∅) ∧
    exOld ∉ exRepoOld.commits.filter (fun c => gtimeLe ⟨0, 0⟩ c.time) :=
  ⟨(@claim_C9_default_epoch_cutoff exGm exGe exRepoOld false).1,
    (@claim_C9_default_epoch_cutoff exGm exGe exRepoOld false).2 exOld
      (by decide) (by decide)⟩

/-- Claim C5: every finding in the set `perform_scan` returns has a
non-empty `strings_found` list — the regex branch inserts only when the
decoded secrets list is non-empty and the entropy branch only when the
entropy token list is non-empty. -/
theorem claim_C5_strings_found_nonempty {gm : Matcher} {ge : EntropyFn} {repo : Repo}
    {since_commit : Option String} {se : Bool} {res : Finset GitFinding}
    (h : perform_scan gm ge repo since_commit se = some res) :
    ∀ f ∈ res, f.strings_found ≠ [] := by
  intro f hf
  obtain ⟨c, _, _, dl, _, _, _, _, _, _, hbr⟩ := perform_scan_mem h hf
  rcases hbr with ⟨ranges, _, hrne, hsf⟩ | ⟨_, _, hsf, hgne⟩
  · rw [hsf]
    intro hc
    exact hrne (List.map_eq_nil_iff.mp hc)
  · rw [hsf]
    exact hgne

/-- Witness for C5 on the concrete scan of `exRepo`. -/
theorem claim_C5_witness : exFinding.strings_found ≠ [] :=
  @claim_C5_strings_found_nonempty exGm exGe exRepo none false {exFinding}
    (by decide) exFinding (by decide)

/-- Claim C6: each element of `strings_found` is the strict-ASCII decoding
of its matched byte range with malformed bytes silently dropped
(`asciiDecodeIgnore` always succeeds and keeps exactly the bytes below
128); the literal `<STRING DECODE ERROR>` substitution is the total
fallback `decodeOrError`; every regex finding's `strings_found` and `diff`
arise by applying `decodeOrError` to the match ranges and the full line;
and a line whose commit message and delta path are present never aborts
the walk, whatever its bytes — so a decode failure never aborts it. -/
theorem claim_C6_ascii_decode_policy :
    (∀ bs, asciiDecodeIgnore bs =
      some (String.mk ((bs.filter (fun b => decide (b < 128))).map Char.ofNat))) ∧
    (∀ bs, decodeOrError bs =
      String.mk ((bs.filter (fun b => decide (b < 128))).map Char.ofNat)) ∧
    (∀ (gm : Matcher) (ge : EntropyFn) (repo : Repo) (s? : Option String) (se : Bool)
      (res : Finset GitFinding) (f : GitFinding),
      perform_scan gm ge repo s? se = some res → f ∈ res → f.reason ≠ "Entropy" →
      ∃ (content : List Nat) (ranges : List (Nat × Nat)), ranges ≠ [] ∧
        f.diff = decodeOrError content ∧
        f.strings_found = ranges.map (fun r => decodeOrError (byteSlice content r.1 r.2))) ∧
    (∀ (gm : Matcher) (ge : EntropyFn) (se : Bool) (msg p hash d : String)
      (dl : DiffLine) (acc : Finset GitFinding), dl.newFilePath = some p →
      processLine gm ge se (some msg) hash d dl acc ≠ none) := by
  refine ⟨asciiDecodeIgnore_eq, ?_, ?_, ?_⟩
  · intro bs
    unfold decodeOrError
    rw [asciiDecodeIgnore_eq]
  · intro gm ge repo s? se res f h hf hrsn
    obtain ⟨c, _, _, dl, _, _, _, _, _, hdiff, hbr⟩ := perform_scan_mem h hf
    rcases hbr with ⟨ranges, _, hrne, hsf⟩ | ⟨_, hent, _, _⟩
    · exact ⟨dl.content, ranges, hrne, hdiff, hsf⟩
    · exact absurd hent hrsn
  · intro gm ge se msg p hash d dl acc hpath
    exact processLine_ne_none hpath

/-- Witness for C6, instantiating each conjunct on the concrete scan. -/
theorem claim_C6_witness :
    (asciiDecodeIgnore [65, 200, 66] =
      some (String.mk (([65, 200, 66].filter (fun b => decide (b < 128))).map Char.ofNat))) ∧
    (decodeOrError [65, 200, 66] =
      String.mk (([65, 200, 66].filter (fun b => decide (b < 128))).map Char.ofNat)) ∧
    (∃ (content : List Nat) (ranges : List (Nat × Nat)), ranges ≠ [] ∧
      exFinding.diff = decodeOrError content ∧
      exFinding.strings_found =
        ranges.map (fun r => decodeOrError (byteSlice content r.1 r.2))) ∧
    processLine exGm exGe false (some "initial") "c1" (naiveDateTimeString 100) exLine ∅ ≠
      none :=
  ⟨claim_C6_ascii_decode_policy.1 [65, 200, 66],
    claim_C6_ascii_decode_policy.2.1 [65, 200, 66],
    claim_C6_ascii_decode_policy.2.2.1 exGm exGe exRepo none false {exFinding} exFinding
      (by decide) (by decide) (by decide),
    claim_C6_ascii_decode_policy.2.2.2 exGm exGe false "initial" "config.yml" "c1"
      (naiveDateTimeString 100) exLine ∅ (by decide)⟩

/-- Claim C7: two findings are equal exactly when all seven fields agree,
and inserting a finding already present in the accumulator set leaves the
set unchanged — duplicates are absorbed silently. -/
theorem claim_C7_structural_equality_dedup :
    (∀ f g : GitFinding, f = g ↔ (f.commit = g.commit ∧ f.commit_hash = g.commit_hash ∧
      f.date = g.date ∧ f.diff = g.diff ∧ f.strings_found = g.strings_found ∧
      f.path = g.path ∧ f.reason = g.reason)) ∧
    ∀ (s : Finset GitFinding) (f : GitFinding), f ∈ s → insert f s = s := by
  constructor
  · intro f g
    cases f
    cases g
    simp [GitFinding.mk.injEq]
  · intro s f hf
    exact Finset.insert_eq_self.mpr hf

/-- Witness for C7 on the concrete finding `exFinding`. -/
theorem claim_C7_witness :
    (exFinding = exFinding ↔ (exFinding.commit = exFinding.commit ∧
      exFinding.commit_hash = exFinding.commit_hash ∧ exFinding.date = exFinding.date ∧
      exFinding.diff = exFinding.diff ∧ exFinding.strings_found = exFinding.strings_found ∧
      exFinding.path = exFinding.path ∧ exFinding.reason = exFinding.reason)) ∧
    insert exFinding ({exFinding} : Finset GitFinding) = {exFinding} :=
  ⟨claim_C7_structural_equality_dedup.1 exFinding exFinding,
    claim_C7_structural_equality_dedup.2 {exFinding} exFinding (by decide)⟩

/-- Counterexample to C3 as stated: for a URL with scheme `ssh` and no
username (the url crate reports an absent username as the empty string,
e.g. for `ssh://example.com/repo`), the `ssh` branch passes the username
through verbatim — the clone uses the empty username, not `git`. -/
theorem claim_C3_counterexample :
    init_git_repo (Except.ok ⟨"ssh", ""⟩) "ssh://example.com/repo" true =
      some (CloneAction.cloneSsh "") ∧
    CloneAction.cloneSsh "" ≠ CloneAction.cloneSsh "git" := by
  decide

/-- Claim C3 as amended: for scheme `ssh` the clone uses the URL's username
exactly as parsed (so the empty string when the URL carries none); the
`git` default applies to the `git` scheme, where an empty username is
replaced by `"git"`. -/
theorem claim_C3_ssh_uses_url_username {u : ParsedUrl} {path : String} {b : Bool}
    (hs : u.scheme = "ssh") :
    init_git_repo (Except.ok u) path b = some (CloneAction.cloneSsh u.username) ∧
    ∀ v : ParsedUrl, v.scheme = "git" → init_git_repo (Except.ok v) path b =
      some (CloneAction.cloneSsh (if v.username = "" then "git" else v.username)) := by
  constructor
  · obtain ⟨sc, un⟩ := u
    cases hs
    rfl
  · intro v hv
    obtain ⟨sc, un⟩ := v
    cases hv
    rfl

/-- Witness for the amended C3 at a concrete ssh URL with a username, and
a concrete `git` URL without one. -/
theorem claim_C3_witness :
    init_git_repo (Except.ok ⟨"ssh", "alice"⟩) "ssh://alice@h/r" false =
      some (CloneAction.cloneSsh "alice") ∧
    init_git_repo (Except.ok ⟨"git", ""⟩) "ssh://alice@h/r" false =
      some (CloneAction.cloneSsh (if "" = "" then "git" else "")) :=
  ⟨(@claim_C3_ssh_uses_url_username ⟨"ssh", "alice"⟩ "ssh://alice@h/r" false rfl).1,
    (@claim_C3_ssh_uses_url_username ⟨"ssh", "alice"⟩ "ssh://alice@h/r" false rfl).2
      ⟨"git", ""⟩ rfl⟩

/-- Counterexample to C4 as stated: on a repository whose only commit's
diff line has no post-image path while the line matches a pattern, the
scan returns `none` — the `.unwrap()` on the missing path panics and the
walk aborts; it does not skip the finding and continue. -/
theorem claim_C4_counterexample :
    perform_scan exGm exGe delRepo none false = none ∧
    delLine.newFilePath = none ∧ delCommit ∈ delRepo.commits := by
  decide

/-- Claim C4 as amended: when a diff line's post-image path is unavailable
and the line is about to yield a finding (a non-empty regex match, or
entropy scanning enabled with a non-empty entropy result), `perform_scan`
panics on the path `.unwrap()` — no finding is emitted for the line, but
the walk aborts rather than continuing. -/
theorem claim_C4_missing_path_panics {gm : Matcher} {ge : EntropyFn} {se : Bool}
    {msg? : Option String} {hash d : String} {dl : DiffLine} {acc : Finset GitFinding}
    (hpath : dl.newFilePath = none)
    (hx : (∃ r rs, (r, rs) ∈ gm dl.content ∧ rs ≠ []) ∨ (se = true ∧ ge dl.content ≠ [])) :
    processLine gm ge se msg? hash d dl acc = none :=
  processLine_none_of_path hpath hx

/-- Witness for the amended C4 on the concrete pathless line. -/
theorem claim_C4_witness :
    processLine exGm exGe false (some "del") "d1" (naiveDateTimeString 1) delLine ∅ =
      none :=
  @claim_C4_missing_path_panics exGm exGe false (some "del") "d1"
    (naiveDateTimeString 1) delLine ∅ (by decide)
    (Or.inl ⟨"AWS API Key", [(0, 4)], by decide, by decide⟩)

/-- Counterexample to C8 as stated: with a user-supplied pattern named
`"Entropy"` (the catalogue keys are arbitrary reason strings), a scan with
entropy scanning disabled emits a finding whose reason is `"Entropy"`, and
removing the `"Entropy"`-reason findings from the entropy-enabled result
does not reproduce the entropy-disabled result. -/
theorem claim_C8_counterexample :
    perform_scan gmEnt exGe entRepo none false = some {entFinding} ∧
    entFinding.reason = "Entropy" ∧
    perform_scan gmEnt exGe entRepo none true = some {entFinding} ∧
    Finset.filter (fun f => f.reason ≠ "Entropy") {entFinding} = (∅ : Finset GitFinding) ∧
    ({entFinding} : Finset GitFinding) ≠ (∅ : Finset GitFinding) := by
  decide

/-- Claim C8 as amended: provided no reason `get_matches` yields equals
`"Entropy"`, findings with reason `"Entropy"` appear only when entropy
scanning is enabled, and whenever the entropy-enabled scan completes, the
entropy-disabled scan completes with exactly the enabled result minus the
`"Entropy"`-reason findings. -/
theorem claim_C8_entropy_off_is_filter {gm : Matcher} {ge : EntropyFn} {repo : Repo}
    {s? : Option String}
    (hgm : ∀ bs r rs, (r, rs) ∈ gm bs → r ≠ "Entropy") :
    (∀ res, perform_scan gm ge repo s? false = some res →
      ∀ f ∈ res, f.reason ≠ "Entropy") ∧
    (∀ res, perform_scan gm ge repo s? true = some res →
      perform_scan gm ge repo s? false =
        some (res.filter (fun f => f.reason ≠ "Entropy"))) := by
  constructor
  · intro res h f hf
    obtain ⟨c, _, _, dl, _, _, _, _, _, _, hbr⟩ := perform_scan_mem h hf
    rcases hbr with ⟨ranges, hmem, _, _⟩ | ⟨hse, _, _, _⟩
    · exact hgm dl.content f.reason ranges hmem
    · exact absurd hse (by simp)
  · intro res h
    unfold perform_scan at h ⊢
    cases hst : sinceTime repo s? with
    | none => rw [hst] at h; exact absurd h (by simp)
    | some t =>
      rw [hst] at h
      dsimp only at h ⊢
      have hfil := scanCommits_filter hgm h
      rwa [Finset.filter_empty] at hfil

/-- Witness for the amended C8: on `exRepo` with a conventional pattern
name and an entropy analyzer reporting a token on every line, the enabled
scan emits both findings and the disabled scan is its filtered version. -/
theorem claim_C8_witness :
    exFinding.reason ≠ "Entropy" ∧
    perform_scan exGm geTok exRepo none false =
      some (Finset.filter (fun f => f.reason ≠ "Entropy")
        (insert ⟨"initial", "c1", naiveDateTimeString 100, "AKIA", ["deadbeef"],
          "config.yml", "Entropy"⟩ {exFinding})) :=
  ⟨(@claim_C8_entropy_off_is_filter exGm geTok exRepo none
      (fun bs r rs hm => by
        simp only [exGm, List.mem_singleton] at hm
        have h1 : r = "AWS API Key" := congrArg Prod.fst hm
        rw [h1]
        decide)).1 {exFinding} (by decide) exFinding (by decide),
    (@claim_C8_entropy_off_is_filter exGm geTok exRepo none
      (fun bs r rs hm => by
        simp only [exGm, List.mem_singleton] at hm
        have h1 : r = "AWS API Key" := congrArg Prod.fst hm
        rw [h1]
        decide)).2
      (insert ⟨"initial", "c1", naiveDateTimeString 100, "AKIA", ["deadbeef"],
        "config.yml", "Entropy"⟩ {exFinding}) (by decide)⟩

/-- Counterexample to C10 as stated: a scanned line with no regex match
whose entropy result is non-empty, in a commit whose message is not valid
UTF-8, does not make `perform_scan` panic when entropy scanning is
disabled — the scan completes with the empty finding set. -/
theorem claim_C10_counterexample :
    perform_scan gmNone geTok noMsgRepo none false = some (∅ : Finset GitFinding) ∧
    geTok noMsgLine.content ≠ [] ∧
    noMsgCommit.message = none ∧
    noMsgCommit ∈ noMsgRepo.commits := by
  decide

/-- Claim C10 as amended: if a scanned line produces at least one regex
match, or entropy scanning is enabled and the line's entropy result is
non-empty, and the commit's message is not valid UTF-8 (`commit.message()`
is `None`), then the line's processing panics on the message `.unwrap()` —
no finding is emitted and the walk aborts. -/
theorem claim_C10_message_none_panics {gm : Matcher} {ge : EntropyFn} {se : Bool}
    {msg? : Option String} {hash d : String} {dl : DiffLine} {acc : Finset GitFinding}
    (hmsg : msg? = none)
    (hx : (∃ r rs, (r, rs) ∈ gm dl.content ∧ rs ≠ []) ∨ (se = true ∧ ge dl.content ≠ [])) :
    processLine gm ge se msg? hash d dl acc = none := by
  rw [hmsg]
  exact processLine_none_of_msg hx

/-- Witness for the amended C10 on the concrete messageless commit with
entropy scanning enabled. -/
theorem claim_C10_witness :
    processLine gmNone geTok true none "n1" (naiveDateTimeString 1) noMsgLine ∅ = none :=
  @claim_C10_message_none_panics gmNone geTok true none "n1" (naiveDateTimeString 1)
    noMsgLine ∅ rfl (Or.inr ⟨rfl, by decide⟩)

end RustyHog
